import Mathlib

/-!
Verification of the i18n content-resolution and caching subsystem:
a shallow embedding of the caption resolver (composables/languageProvider),
the language store (stores/language), the content loader
(services/languageService) and the IndexedDB-backed single-slot cache
(services/db), with theorems settling the specified properties.
-/

namespace I18n

/-- A JSON-like content tree: either a string template (leaf) or an object
mapping names to subtrees.  This models both full `ContentDocument`s and the
values met while walking one. -/
inductive Tree where
  | leaf (s : String)
  | node (entries : List (String × Tree))

/-- JavaScript truthiness of a content value: objects are always truthy,
strings are truthy iff non-empty. -/
def truthy : Tree → Bool
  | Tree.leaf s => s ≠ ""
  | Tree.node _ => true

/-- Truthiness of an optional value; `undefined` (none) is falsy. -/
def optTruthy : Option Tree → Bool
  | none => false
  | some t => truthy t

/-- First-match association-list lookup, as JS property access on an object
literal built from these entries. -/
def lookupEntry : List (String × Tree) → String → Option Tree
  | [], _ => none
  | (k, v) :: rest, key => if k = key then some v else lookupEntry rest key

/-- Property access `t[key]`: defined only on objects (a string has no such
properties in the fragment the program exercises). -/
def treeGet : Tree → String → Option Tree
  | Tree.leaf _, _ => none
  | Tree.node entries, key => lookupEntry entries key

/-- `getNestedValue` from the caption provider: walk the object by the
dot-separated path one segment at a time; any missing segment makes the whole
lookup undefined. -/
def getNestedValue : Tree → List String → Option Tree
  | t, [] => some t
  | t, k :: ks =>
    match treeGet t k with
    | some child => getNestedValue child ks
    | none => none

/-- Split a character list at a separator character, keeping empty pieces,
with `cur` the (reversed) piece accumulated so far. -/
def splitCharAux (sep : Char) : List Char → List Char → List String
  | [], cur => [String.mk cur.reverse]
  | c :: rest, cur =>
    if c = sep then String.mk cur.reverse :: splitCharAux sep rest []
    else splitCharAux sep rest (c :: cur)

/-- `path.split('.')` on the key string: the dot-separated segments, empty
segments included (`"".split('.')` is `[""]`). -/
def splitKey (key : String) : List String :=
  splitCharAux '.' key.data []

/-- Boolean prefix test on character lists. -/
def isPrefixList : List Char → List Char → Bool
  | [], _ => true
  | _ :: _, [] => false
  | p :: ps, c :: cs => p = c && isPrefixList ps cs

/-- ECMAScript GetSubstitution for a string-valued search (no capture
groups): in the replacement text, `$$` yields `$`, `$&` the matched
substring, a dollar followed by the code-96 character (backquote) the text
before the match, and a dollar followed by the code-39 character (single
quote) the text after the match; every other dollar — including before
digits, which would name nonexistent capture groups — is literal. -/
def getSubstitution (matched before after : List Char) : List Char → List Char
  | [] => []
  | [c] => [c]
  | c :: d :: rest2 =>
    if c = '$' then
      if d = '$' then '$' :: getSubstitution matched before after rest2
      else if d = '&' then
        matched ++ getSubstitution matched before after rest2
      else if d = Char.ofNat 96 then
        before ++ getSubstitution matched before after rest2
      else if d = Char.ofNat 39 then
        after ++ getSubstitution matched before after rest2
      else '$' :: getSubstitution matched before after (d :: rest2)
    else c :: getSubstitution matched before after (d :: rest2)

/-- Locate the first occurrence of `pat` in `s`, scanning left to right:
the text before and the text after the match, or none when `pat` does not
occur. -/
def findFirst (s pat : List Char) : Option (List Char × List Char) :=
  match s with
  | [] => if pat.isEmpty then some ([], []) else none
  | c :: rest =>
    if isPrefixList pat (c :: rest) then
      some ([], (c :: rest).drop pat.length)
    else
      match findFirst rest pat with
      | some (b, a) => some (c :: b, a)
      | none => none

/-- `String.prototype.replace` with a plain-string pattern and a string
replacement: replace only the FIRST occurrence of `pat` in `s` (scanning
left to right), inserting the replacement text with its ECMAScript dollar
escapes substituted (`getSubstitution`); leave `s` unchanged when `pat`
does not occur. -/
def replaceFirstAux (s pat repl : List Char) : List Char :=
  match findFirst s pat with
  | some (before, after) =>
    before ++ getSubstitution pat before after repl ++ after
  | none => s

/-- Does `pat` occur anywhere in `s` as a contiguous substring? -/
def hasSub (s pat : List Char) : Bool :=
  match s with
  | [] => pat.isEmpty
  | c :: rest => isPrefixList pat (c :: rest) || hasSub rest pat

/-- String-level first-occurrence replacement. -/
def replaceFirst (s pat repl : String) : String :=
  String.mk (replaceFirstAux s.data pat.data repl.data)

/-- Parameter interpolation of `caption`: for each `(paramKey, paramValue)`
entry in turn (insertion order, as `Object.entries(...).forEach`), replace the
first occurrence of the literal pattern `\x7bparamKey\x7d` with the value. -/
def interpolate (s : String) (ps : List (String × String)) : String :=
  ps.foldl (fun acc p => replaceFirst acc ("\x7b" ++ p.1 ++ "\x7d") p.2) s

/-- The literal placeholder pattern for a parameter key. -/
def placeholderOf (k : String) : String := "\x7b" ++ k ++ "\x7d"

/-- Interleave segments with the parameters' placeholders:
`segs[0] ++ \x7bk1\x7d ++ segs[1] ++ ... ++ \x7bkn\x7d ++ segs[n]` (the
segments list has one more entry than the parameter list). -/
def withPlaceholders : List String → List (String × String) → String
  | s :: _, [] => s
  | s :: segs, p :: ps => s ++ placeholderOf p.1 ++ withPlaceholders segs ps
  | [], _ => ""

/-- Interleave the same segments with the parameters' values instead. -/
def withValues : List String → List (String × String) → String
  | s :: _, [] => s
  | s :: segs, p :: ps => s ++ p.2 ++ withValues segs ps
  | [], _ => ""

/-- Each parameter's placeholder first occurs exactly at its intended
position: scanning the parameters in insertion order, with `pre` the text
already processed (earlier segments with earlier values substituted in), the
next placeholder must not occur starting anywhere inside `pre` plus the next
segment. -/
def alignedFrom : List Char → List String → List (String × String) → Bool
  | pre, s :: segs, p :: ps =>
    ((List.range (pre ++ s.data).length).all fun j =>
      !isPrefixList (placeholderOf p.1).data
        ((pre ++ s.data).drop j ++ (placeholderOf p.1).data
          ++ (withPlaceholders segs ps).data))
    && alignedFrom (pre ++ s.data ++ p.2.data) segs ps
  | _, _, _ => true

/-- Which branch of the resolver produced the result; mirrors which counter of
`translationStats` is incremented. -/
inductive Source where
  | store
  | fallbackHit
  | missing
deriving DecidableEq

/-- The pre-interpolation part of `caption`: try the language store first
(truthy check), then the bundled English document, then `fallback || key`
(a JS `||`, so an empty explicit fallback falls through to the key). -/
def resolveCore (messages english : Tree) (key : String)
    (fallback : Option String) : Tree × Source :=
  let storeT := getNestedValue messages (splitKey key)
  if optTruthy storeT then (storeT.getD (Tree.leaf ""), Source.store)
  else
    let fbT := getNestedValue english (splitKey key)
    if optTruthy fbT then (fbT.getD (Tree.leaf ""), Source.fallbackHit)
    else
      match fallback with
      | some f =>
        if f = "" then (Tree.leaf key, Source.missing)
        else (Tree.leaf f, Source.missing)
      | none => (Tree.leaf key, Source.missing)

/-- The `caption` resolver together with the resolution source it records:
the fallback chain of `resolveCore`, then, when `params` is given and the
resolved value is a string, parameter interpolation. -/
def captionWithSource (messages english : Tree) (key : String)
    (fallback : Option String) (params : Option (List (String × String))) :
    Tree × Source :=
  let resolved := resolveCore messages english key fallback
  match params, resolved.1 with
  | some ps, Tree.leaf t => (Tree.leaf (interpolate t ps), resolved.2)
  | _, _ => resolved

/-- `caption(key, fallback?, params?)`: the resolved value. -/
def caption (messages english : Tree) (key : String)
    (fallback : Option String) (params : Option (List (String × String))) :
    Tree :=
  (captionWithSource messages english key fallback params).1

/-- `hasTranslation(key)`: the store lookup yields a defined value
(`!== undefined`, NOT a truthiness check). -/
def hasTranslation (messages : Tree) (key : String) : Bool :=
  (getNestedValue messages (splitKey key)).isSome

/-! ### The persistent environment: localStorage marker, IndexedDB slot, network -/

/-- External environment of one run: the network (none = transport error,
non-2xx response, or unparseable body — all collapse to the caught failure),
and whether the storage layer raises inside `languageDB.get` / `languageDB.set`
(modelled as failing at the start of the operation, e.g. an unavailable
database). -/
structure Env where
  net : String → Option Tree
  getThrows : Bool
  setThrows : Bool

/-- Persistent browser state: the `user-language` localStorage entry, the one
IndexedDB `translations` slot (stored under the fixed key `current`), and a
counter of network fetch attempts. -/
structure St where
  userLang : Option String
  dbDoc : Option Tree
  fetchCount : Nat

/-- `localStorage.getItem('user-language') || 'en'`: an absent or empty entry
falls back to `en`. -/
def currentLang (s : St) : String :=
  match s.userLang with
  | none => "en"
  | some l => if l = "" then "en" else l

/-- `languageDB.get(locale)`: returns the stored slot only when the recorded
current-language marker equals the requested locale; otherwise `undefined`.
Raises when the storage layer fails. -/
def dbGet (env : Env) (locale : String) (s : St) : Except Unit (Option Tree) :=
  if env.getThrows then Except.error ()
  else if currentLang s = locale then Except.ok s.dbDoc
  else Except.ok none

/-- `languageDB.set(locale, translations)`: when the recorded marker differs
from the incoming locale, clear the store, then put the document under the
fixed `current` key.  Raises when the storage layer fails. -/
def dbSet (env : Env) (locale : String) (doc : Tree) (s : St) :
    Except Unit St :=
  if env.setThrows then Except.error ()
  else
    let cleared := if currentLang s ≠ locale then { s with dbDoc := none } else s
    Except.ok { cleared with dbDoc := some doc }

/-- `loadLanguage(locale)`: `en` short-circuits to an empty document; then the
cache is consulted (OUTSIDE the try block, so a `get` failure propagates); a
truthy cached value is returned without network; otherwise fetch, and on
success write back through `languageDB.set` — every failure inside the try
block (network, HTTP status, body parse, `set`) is caught and collapses to an
empty document. -/
def loadLanguage (env : Env) (locale : String) (s : St) :
    Except Unit (Tree × St) :=
  if locale = "en" then Except.ok (Tree.node [], s)
  else
    match dbGet env locale s with
    | Except.error e => Except.error e
    | Except.ok cached =>
      if optTruthy cached then Except.ok (cached.getD (Tree.node []), s)
      else
        let s1 := { s with fetchCount := s.fetchCount + 1 }
        match env.net locale with
        | none => Except.ok (Tree.node [], s1)
        | some doc =>
          match dbSet env locale doc s1 with
          | Except.error _ => Except.ok (Tree.node [], s1)
          | Except.ok s2 => Except.ok (doc, s2)

/-! ### The language store (Pinia) -/

/-- The store's reactive state; `messages` is the top-level object holding the
loaded sections. -/
structure Store where
  currentLocale : String
  messages : List (String × Tree)
  isLoading : Bool

/-- `supportedLocales` of the store's initial state. -/
def supportedLocales : List String := ["en", "es", "fr"]

/-- The sections always loaded by `setAndLoadLanguage`. -/
def defaultSections : List String := ["common", "error", "footer"]

/-- Sections requested by `setAndLoadLanguage`: the default sections, plus the
`uiSection` argument when it is truthy (given and non-empty) and not already a
default section. -/
def sectionsToLoadList (uiSection : Option String) : List String :=
  match uiSection with
  | none => defaultSections
  | some u =>
    if u ≠ "" ∧ u ∉ defaultSections then defaultSections ++ [u]
    else defaultSections

/-- `allMessages[section]` when truthy, else nothing: the guard used by the
section filter. -/
def truthyGet (doc : Tree) (name : String) : Option Tree :=
  match treeGet doc name with
  | some v => if truthy v then some v else none
  | none => none

/-- Filter the loaded document to the requested sections, in request order,
keeping a section only when present and truthy in the document
(`if (allMessages[section])`). -/
def filterEntries (doc : Tree) (secs : List String) : List (String × Tree) :=
  secs.filterMap fun name => (truthyGet doc name).map fun v => (name, v)

/-- `setAndLoadLanguage(locale, uiSection?)`: set loading, load the full
document, filter it to the default sections plus the requested one, replace
`messages` wholesale, set the active locale and persist it; on an internal
failure set `messages` to empty; on either path clear the loading flag. -/
def setAndLoadLanguage (env : Env) (locale : String) (uiSection : Option String)
    (store : Store) (s : St) : Store × St :=
  match loadLanguage env locale s with
  | Except.error _ =>
    ({ store with messages := [], isLoading := false }, s)
  | Except.ok (allMessages, s1) =>
    ({ currentLocale := locale,
       messages := filterEntries allMessages (sectionsToLoadList uiSection),
       isLoading := false },
     { s1 with userLang := some locale })

/-- JS object spread `{ ...messages, [name]: v }`: an existing key keeps its
position and takes the new value, a new key is appended. -/
def setEntry (cs : List (String × Tree)) (k : String) (v : Tree) :
    List (String × Tree) :=
  if (lookupEntry cs k).isSome then
    cs.map fun p => if p.1 = k then (k, v) else p
  else cs ++ [(k, v)]

/-- `loadAdditionalSection(sectionName)`: a no-op for the default locale;
otherwise reload the active locale's full document and, when the requested
section is present (truthy) in it, merge that one section additively into
`messages`; the loading flag is cleared on every path. -/
def loadAdditionalSection (env : Env) (sectionName : String)
    (store : Store) (s : St) : Store × St :=
  if store.currentLocale = "en" then (store, s)
  else
    match loadLanguage env store.currentLocale s with
    | Except.error _ => ({ store with isLoading := false }, s)
    | Except.ok (allMessages, s1) =>
      match treeGet allMessages sectionName with
      | some v =>
        if truthy v then
          let merged := setEntry store.messages sectionName v
          ({ store with messages := merged, isLoading := false }, s1)
        else ({ store with isLoading := false }, s1)
      | none => ({ store with isLoading := false }, s1)

/-! ### Concrete fixtures used by witnesses and counterexamples -/

/-- A loaded Spanish content tree, as in the spec's fallback-chain example. -/
def mDemo : Tree :=
  Tree.node [("common", Tree.node [("save", Tree.leaf "Guardar")])]

/-- A bundled default-locale (English) document for the same example. -/
def eDemo : Tree :=
  Tree.node [("common", Tree.node [("save", Tree.leaf "Save"),
    ("cancel", Tree.leaf "Cancel")])]

/-- Sections of a full Spanish remote document. -/
def esSections : List (String × Tree) :=
  [("common", Tree.node [("save", Tree.leaf "Guardar")]),
   ("error", Tree.node [("e1", Tree.leaf "Error")]),
   ("footer", Tree.node [("f1", Tree.leaf "Pie")]),
   ("dashboard", Tree.node [("welcome", Tree.leaf "Hola")]),
   ("settings", Tree.node [("s1", Tree.leaf "Ajustes")])]

/-- The full Spanish remote document. -/
def docES : Tree := Tree.node esSections

/-- A French remote document. -/
def docFR : Tree :=
  Tree.node [("common", Tree.node [("save", Tree.leaf "Enregistrer")])]

/-- A healthy environment serving Spanish and French documents. -/
def envDemo : Env :=
  { net := fun l => if l = "es" then some docES
      else if l = "fr" then some docFR else none,
    getThrows := false, setThrows := false }

/-- An environment whose network always fails and whose storage works. -/
def envFail : Env :=
  { net := fun _ => none, getThrows := false, setThrows := false }

/-- An environment whose cache `get` raises. -/
def envGetErr : Env :=
  { net := fun _ => none, getThrows := true, setThrows := false }

/-- An environment with a working network but a raising cache `set`. -/
def envSetErr : Env :=
  { net := fun l => if l = "es" then some docES else none,
    getThrows := false, setThrows := true }

/-- Fresh persistent state: no marker, empty cache, no fetches. -/
def st0 : St := { userLang := none, dbDoc := none, fetchCount := 0 }

/-- Persistent state with the marker at `es` and the Spanish document in the
slot. -/
def stES : St :=
  { userLang := some "es", dbDoc := some docES, fetchCount := 0 }

/-- The store's initial state. -/
def store0 : Store :=
  { currentLocale := "en", messages := [], isLoading := false }

/-- A document whose only section is named by the empty string. -/
def docEmptyName : Tree :=
  Tree.node [("", Tree.node [("k", Tree.leaf "v")])]

/-- An environment serving `docEmptyName` for Spanish. -/
def envEmptyName : Env :=
  { net := fun l => if l = "es" then some docEmptyName else none,
    getThrows := false, setThrows := false }

/-! ### Helper lemmas -/

theorem lookupEntry_filterEntries (doc : Tree) (secs : List String)
    (name : String) :
    lookupEntry (filterEntries doc secs) name
      = if name ∈ secs then truthyGet doc name else none := by
  induction secs with
  | nil => simp [filterEntries, lookupEntry]
  | cons k rest ih =>
    by_cases hk : k = name
    · subst hk
      cases h : truthyGet doc k with
      | none =>
        simp only [filterEntries, List.filterMap_cons, h, Option.map_none']
        rw [show (List.filterMap
            (fun name => (truthyGet doc name).map fun v => (name, v)) rest)
            = filterEntries doc rest from rfl]
        rw [ih]
        by_cases hm : k ∈ rest <;> simp [hm, h]
      | some v =>
        simp [filterEntries, List.filterMap_cons, h, lookupEntry]
    · cases h : truthyGet doc k with
      | none =>
        simp only [filterEntries, List.filterMap_cons, h, Option.map_none']
        rw [show (List.filterMap
            (fun name => (truthyGet doc name).map fun v => (name, v)) rest)
            = filterEntries doc rest from rfl]
        rw [ih]
        have hnk : ¬ name = k := fun h' => hk h'.symm
        simp [List.mem_cons, hnk]
      | some v =>
        simp only [filterEntries, List.filterMap_cons, h, Option.map_some']
        simp only [lookupEntry, if_neg hk]
        rw [show (List.filterMap
            (fun name => (truthyGet doc name).map fun v => (name, v)) rest)
            = filterEntries doc rest from rfl]
        rw [ih]
        have hnk : ¬ name = k := fun h' => hk h'.symm
        simp [List.mem_cons, hnk]

theorem lookupEntry_mem {cs : List (String × Tree)} {name : String} {v : Tree}
    (h : lookupEntry cs name = some v) : (name, v) ∈ cs := by
  induction cs with
  | nil => simp [lookupEntry] at h
  | cons p rest ih =>
    obtain ⟨k, w⟩ := p
    simp only [lookupEntry] at h
    by_cases hk : k = name
    · subst hk
      rw [if_pos rfl] at h
      cases h
      exact List.mem_cons_self _ _
    · rw [if_neg hk] at h
      exact List.mem_cons_of_mem _ (ih h)

theorem truthyGet_of_all_truthy {d : List (String × Tree)} (name : String)
    (hvals : ∀ p ∈ d, truthy p.2 = true) :
    truthyGet (Tree.node d) name = lookupEntry d name := by
  unfold truthyGet
  rw [show treeGet (Tree.node d) name = lookupEntry d name from rfl]
  cases h : lookupEntry d name with
  | none => rfl
  | some v => simp [hvals (name, v) (lookupEntry_mem h)]

theorem isPrefixList_append_self (p t : List Char) :
    isPrefixList p (p ++ t) = true := by
  induction p with
  | nil => rfl
  | cons c ps ih => simp [isPrefixList, ih]

theorem getSubstitution_no_dollar (matched before after : List Char) :
    ∀ repl : List Char, '$' ∉ repl →
      getSubstitution matched before after repl = repl
  | [] => fun _ => rfl
  | [c] => fun _ => rfl
  | c :: d :: rest2 => fun h => by
    rw [List.mem_cons, not_or] at h
    have hc : ¬ c = '$' := fun he => h.1 he.symm
    simp only [getSubstitution]
    rw [if_neg hc]
    exact congrArg (List.cons c)
      (getSubstitution_no_dollar matched before after (d :: rest2) h.2)

theorem findFirst_none (s pat : List Char) (h : hasSub s pat = false) :
    findFirst s pat = none := by
  induction s with
  | nil =>
    unfold hasSub at h
    unfold findFirst
    rw [h]
    simp
  | cons c rest ih =>
    unfold hasSub at h
    rw [Bool.or_eq_false_iff] at h
    unfold findFirst
    rw [h.1]
    simp only [Bool.false_eq_true, if_false]
    rw [ih h.2]

theorem replaceFirstAux_no_occ (s pat r : List Char)
    (h : hasSub s pat = false) : replaceFirstAux s pat r = s := by
  unfold replaceFirstAux
  rw [findFirst_none s pat h]

theorem findFirst_matchAtStart (s pat : List Char)
    (h : isPrefixList pat s = true) :
    findFirst s pat = some ([], s.drop pat.length) := by
  cases s with
  | nil =>
    cases pat with
    | nil => simp [findFirst]
    | cons p ps => simp [isPrefixList] at h
  | cons c rest =>
    unfold findFirst
    rw [h]
    simp

theorem findFirst_decomp (a b pat : List Char)
    (hfree : ∀ i, i < a.length →
      isPrefixList pat (a.drop i ++ pat ++ b) = false) :
    findFirst (a ++ pat ++ b) pat = some (a, b) := by
  induction a with
  | nil =>
    simp only [List.nil_append]
    rw [findFirst_matchAtStart _ _ (isPrefixList_append_self pat b),
      List.drop_left]
  | cons c a' ih =>
    have h0 : isPrefixList pat (c :: (a' ++ pat ++ b)) = false := by
      have := hfree 0 (by simp)
      simpa using this
    rw [show (c :: a') ++ pat ++ b = c :: (a' ++ pat ++ b) from rfl]
    unfold findFirst
    rw [h0]
    simp only [Bool.false_eq_true, if_false]
    rw [ih]
    intro i hi
    have := hfree (i + 1) (by simpa using Nat.succ_lt_succ hi)
    simpa using this

theorem replaceFirstAux_first_occ (a b pat r : List Char)
    (hfree : ∀ i, i < a.length →
      isPrefixList pat (a.drop i ++ pat ++ b) = false) :
    replaceFirstAux (a ++ pat ++ b) pat r
      = a ++ getSubstitution pat a b r ++ b := by
  unfold replaceFirstAux
  rw [findFirst_decomp a b pat hfree]

theorem captionWithSource_params_none (m e : Tree) (key : String)
    (fb : Option String) :
    captionWithSource m e key fb none = resolveCore m e key fb := by
  unfold captionWithSource
  cases h : (resolveCore m e key fb).1 <;> simp [h]

theorem captionWithSource_snd (m e : Tree) (key : String) (fb : Option String)
    (ps : Option (List (String × String))) :
    (captionWithSource m e key fb ps).2 = (resolveCore m e key fb).2 := by
  unfold captionWithSource
  rcases ps with _ | ps
  · cases h : (resolveCore m e key fb).1 <;> simp [h]
  · cases h : (resolveCore m e key fb).1 <;> simp [h]

theorem resolveCore_store (m e : Tree) (key : String) (fb : Option String)
    (v : Tree) (h : getNestedValue m (splitKey key) = some v)
    (ht : truthy v = true) :
    resolveCore m e key fb = (v, Source.store) := by
  simp [resolveCore, h, optTruthy, ht]

theorem resolveCore_fallbackHit (m e : Tree) (key : String) (fb : Option String)
    (h1 : optTruthy (getNestedValue m (splitKey key)) = false)
    (v : Tree) (h : getNestedValue e (splitKey key) = some v)
    (ht : truthy v = true) :
    resolveCore m e key fb = (v, Source.fallbackHit) := by
  simp only [resolveCore, h1, h]
  simp [optTruthy, ht]

theorem resolveCore_missing (m e : Tree) (key : String) (fb : Option String)
    (h1 : optTruthy (getNestedValue m (splitKey key)) = false)
    (h2 : optTruthy (getNestedValue e (splitKey key)) = false) :
    resolveCore m e key fb
      = (Tree.leaf (match fb with
          | some f => if f = "" then key else f
          | none => key), Source.missing) := by
  rcases fb with _ | f
  · simp only [resolveCore, h1, h2]
    simp
  · by_cases hf : f = "" <;>
      · simp only [resolveCore, h1, h2]
        simp [hf]

theorem resolveCore_snd_source (m e : Tree) (key : String) (fb : Option String) :
    (resolveCore m e key fb).2
      = (if optTruthy (getNestedValue m (splitKey key)) then Source.store
         else if optTruthy (getNestedValue e (splitKey key)) then
           Source.fallbackHit
         else Source.missing) := by
  by_cases h1 : optTruthy (getNestedValue m (splitKey key))
  · simp only [resolveCore, h1]
    simp
  · rw [Bool.not_eq_true] at h1
    by_cases h2 : optTruthy (getNestedValue e (splitKey key))
    · simp only [resolveCore, h1, h2]
      simp
    · rw [Bool.not_eq_true] at h2
      rcases fb with _ | f
      · simp only [resolveCore, h1, h2]
        simp
      · by_cases hf : f = "" <;>
          · simp only [resolveCore, h1, h2]
            simp [hf]

theorem filterEntries_empty (secs : List String) :
    filterEntries (Tree.node []) secs = [] := by
  induction secs with
  | nil => rfl
  | cons k rest ih =>
    simp only [filterEntries, List.filterMap_cons] at ih ⊢
    rw [show truthyGet (Tree.node []) k = none from rfl]
    simpa using ih

theorem dbGet_no_throw (env : Env) (locale : String) (s : St)
    (hg : env.getThrows = false) :
    dbGet env locale s
      = Except.ok (if currentLang s = locale then s.dbDoc else none) := by
  unfold dbGet
  rw [hg]
  by_cases h : currentLang s = locale <;> simp [h]

theorem loadLanguage_isOk (env : Env) (locale : String) (s : St)
    (hg : env.getThrows = false) :
    ∃ r, loadLanguage env locale s = Except.ok r := by
  unfold loadLanguage
  rw [dbGet_no_throw env locale s hg]
  by_cases h1 : locale = "en"
  · exact ⟨_, by rw [if_pos h1]⟩
  · rw [if_neg h1]
    split
    · next heq => exact absurd heq (by simp)
    · next cached heq =>
      by_cases h3 : optTruthy cached
      · exact ⟨_, by rw [if_pos h3]⟩
      · rw [if_neg h3]
        split
        · exact ⟨_, rfl⟩
        · dsimp only
          split
          · exact ⟨_, rfl⟩
          · exact ⟨_, rfl⟩

theorem currentLang_update (s : St) (L : String) (hL : L ≠ "") :
    currentLang { s with userLang := some L } = L := by
  simp [currentLang, hL]

theorem currentLang_mk (L : String) (hL : L ≠ "") (x : Option Tree) (y : Nat) :
    currentLang { userLang := some L, dbDoc := x, fetchCount := y } = L := by
  simp [currentLang, hL]

/-- On a cache miss with a failing network the loader absorbs the failure
and returns an empty document, having attempted one fetch. -/
theorem loadLanguage_miss_netfail (env : Env) (locale : String) (s : St)
    (hg : env.getThrows = false) (hL : locale ≠ "en")
    (hcur : currentLang s ≠ locale) (hn : env.net locale = none) :
    loadLanguage env locale s
      = Except.ok (Tree.node [],
          { s with fetchCount := s.fetchCount + 1 }) := by
  unfold loadLanguage
  rw [dbGet_no_throw env locale s hg, if_neg hL, if_neg hcur]
  dsimp only
  rw [show optTruthy none = false from rfl]
  simp only [Bool.false_eq_true, if_false]
  rw [hn]

/-- When the cache `get` raises, the loader itself raises (the get is awaited
outside the try block). -/
theorem loadLanguage_getThrows_error (env : Env) (locale : String) (s : St)
    (hgT : env.getThrows = true) (hL : locale ≠ "en") :
    loadLanguage env locale s = Except.error () := by
  unfold loadLanguage dbGet
  rw [if_neg hL, hgT]
  rfl

/-- Full evaluation of the loader when storage does not raise and the network
has a document for `L`: either a cache hit (marker matches and slot truthy;
no state change), or a fetch-and-write-back. -/
theorem loadLanguage_eval (env : Env) (L : String) (s : St)
    (hL : L ≠ "en") (hg : env.getThrows = false) (hset : env.setThrows = false)
    (d : Tree) (hn : env.net L = some d) :
    loadLanguage env L s
      = if currentLang s = L ∧ optTruthy s.dbDoc = true then
          Except.ok (s.dbDoc.getD (Tree.node []), s)
        else
          Except.ok (d, { userLang := s.userLang, dbDoc := some d,
                          fetchCount := s.fetchCount + 1 }) := by
  unfold loadLanguage
  rw [dbGet_no_throw env L s hg, if_neg hL]
  by_cases h2 : currentLang s = L
  · rw [if_pos h2]
    dsimp only
    by_cases h3 : optTruthy s.dbDoc
    · rw [if_pos h3, if_pos ⟨h2, h3⟩]
    · rw [if_neg h3, if_neg (fun hc => h3 hc.2), hn]
      dsimp only
      unfold dbSet
      rw [hset]
      simp only [Bool.false_eq_true, if_false]
      rw [if_neg (fun hne : currentLang { s with
          fetchCount := s.fetchCount + 1 } ≠ L => hne h2)]
  · rw [if_neg h2]
    dsimp only
    rw [show optTruthy none = false from rfl]
    simp only [Bool.false_eq_true, if_false]
    rw [if_neg (fun hc => h2 hc.1), hn]
    dsimp only
    unfold dbSet
    rw [hset]
    simp only [Bool.false_eq_true, if_false]
    rw [if_pos (fun heq : currentLang { s with
        fetchCount := s.fetchCount + 1 } = L => h2 heq)]

/-- The persistent state after one `setAndLoadLanguage` under a working
storage layer and a network that has a document for `L`. -/
theorem activate_state (env : Env) (L : String) (ui : Option String)
    (store : Store) (s : St)
    (hL : L ≠ "en") (hg : env.getThrows = false) (hset : env.setThrows = false)
    (d : Tree) (hn : env.net L = some d) :
    (setAndLoadLanguage env L ui store s).2
      = if currentLang s = L ∧ optTruthy s.dbDoc = true then
          { s with userLang := some L }
        else
          { userLang := some L, dbDoc := some d,
            fetchCount := s.fetchCount + 1 } := by
  unfold setAndLoadLanguage
  rw [loadLanguage_eval env L s hL hg hset d hn]
  by_cases hc : currentLang s = L ∧ optTruthy s.dbDoc = true
  · rw [if_pos hc, if_pos hc]
  · rw [if_neg hc, if_neg hc]

/-- The store contents after one `setAndLoadLanguage`, given what the loader
returned. -/
theorem activate_store (env : Env) (L : String) (ui : Option String)
    (store : Store) (s : St) (allM : Tree) (s1 : St)
    (hload : loadLanguage env L s = Except.ok (allM, s1)) :
    (setAndLoadLanguage env L ui store s).1
      = { currentLocale := L,
          messages := filterEntries allM (sectionsToLoadList ui),
          isLoading := false } := by
  unfold setAndLoadLanguage
  rw [hload]

theorem lookupEntry_append (cs ds : List (String × Tree)) (name : String) :
    lookupEntry (cs ++ ds) name
      = match lookupEntry cs name with
        | some v => some v
        | none => lookupEntry ds name := by
  induction cs with
  | nil => rfl
  | cons p rest ih =>
    obtain ⟨a, b⟩ := p
    by_cases han : a = name
    · simp [lookupEntry, han]
    · simp [lookupEntry, han, ih]

theorem lookupEntry_mapSet (cs : List (String × Tree)) (k : String) (v : Tree)
    (h : (lookupEntry cs k).isSome = true) :
    lookupEntry (cs.map fun p => if p.1 = k then (k, v) else p) k = some v := by
  induction cs with
  | nil => simp [lookupEntry] at h
  | cons p rest ih =>
    obtain ⟨a, b⟩ := p
    simp only [List.map_cons]
    by_cases hak : a = k
    · dsimp only
      rw [if_pos hak]
      simp [lookupEntry]
    · dsimp only
      rw [if_neg hak]
      simp only [lookupEntry, if_neg hak]
      apply ih
      simp only [lookupEntry, if_neg hak] at h
      exact h

theorem lookupEntry_setEntry_self (cs : List (String × Tree)) (k : String)
    (v : Tree) : lookupEntry (setEntry cs k v) k = some v := by
  unfold setEntry
  by_cases h : (lookupEntry cs k).isSome
  · rw [if_pos h]
    exact lookupEntry_mapSet cs k v h
  · rw [if_neg h]
    rw [lookupEntry_append]
    rcases he : lookupEntry cs k with _ | w
    · simp [lookupEntry]
    · rw [he] at h
      simp at h

theorem lookupEntry_setEntry_ne (cs : List (String × Tree)) (k : String)
    (v : Tree) (name : String) (h : name ≠ k) :
    lookupEntry (setEntry cs k v) name = lookupEntry cs name := by
  unfold setEntry
  by_cases hs : (lookupEntry cs k).isSome
  · rw [if_pos hs]
    clear hs
    induction cs with
    | nil => rfl
    | cons p rest ih =>
      obtain ⟨a, b⟩ := p
      simp only [List.map_cons]
      by_cases hak : a = k
      · dsimp only
        rw [if_pos hak]
        have hkn : ¬ k = name := fun hh => h hh.symm
        have han : ¬ a = name := by
          intro he
          rw [he] at hak
          exact h hak
        simp only [lookupEntry, if_neg hkn, if_neg han]
        exact ih
      · dsimp only
        rw [if_neg hak]
        simp only [lookupEntry]
        by_cases han : a = name
        · rw [if_pos han, if_pos han]
        · rw [if_neg han, if_neg han]
          exact ih
  · rw [if_neg hs]
    rw [lookupEntry_append]
    cases he : lookupEntry cs name with
    | some w => rfl
    | none =>
      have hkn : ¬ k = name := fun hh => h hh.symm
      simp [lookupEntry, hkn]

theorem captionWithSource_params_leaf (m e : Tree) (key : String)
    (fb : Option String) (ps : List (String × String)) (t : String)
    (src : Source) (h : resolveCore m e key fb = (Tree.leaf t, src)) :
    captionWithSource m e key fb (some ps)
      = (Tree.leaf (interpolate t ps), src) := by
  unfold captionWithSource
  rw [h]

theorem interpolate_cons (t : String) (p : String × String)
    (rest : List (String × String)) :
    interpolate t (p :: rest)
      = interpolate (replaceFirst t ("\x7b" ++ p.1 ++ "\x7d") p.2) rest := rfl

theorem interpolate_no_occ (t : String) :
    ∀ ps : List (String × String),
      (∀ p ∈ ps, hasSub t.data ("\x7b" ++ p.1 ++ "\x7d").data = false) →
      interpolate t ps = t := by
  intro ps
  induction ps with
  | nil => intro _; rfl
  | cons p rest ih =>
    intro h
    rw [interpolate_cons]
    have h1 : replaceFirst t ("\x7b" ++ p.1 ++ "\x7d") p.2 = t := by
      unfold replaceFirst
      rw [replaceFirstAux_no_occ _ _ _ (h p (List.mem_cons_self p rest))]
    rw [h1]
    exact ih fun q hq => h q (List.mem_cons_of_mem _ hq)

theorem interpolate_cons_ph (t : String) (p : String × String)
    (rest : List (String × String)) :
    interpolate t (p :: rest)
      = interpolate (replaceFirst t (placeholderOf p.1) p.2) rest := rfl

/-- Sequential interpolation of a whole parameter list: when the template
interleaves segments with the parameters' placeholders in insertion order,
each placeholder first occurs at its own position (`alignedFrom`), and the
values contain no dollar escapes, the result interleaves the same segments
with the values. -/
theorem interpolate_aligned (ps : List (String × String)) :
    ∀ (segs : List String) (pre : String),
      segs.length = ps.length + 1 →
      (∀ p ∈ ps, '$' ∉ p.2.data) →
      alignedFrom pre.data segs ps = true →
      interpolate (pre ++ withPlaceholders segs ps) ps
        = pre ++ withValues segs ps := by
  induction ps with
  | nil =>
    intro segs pre hlen _ _
    rcases segs with _ | ⟨s, rest⟩
    · simp at hlen
    · rcases rest with _ | ⟨s2, rest2⟩
      · rfl
      · simp at hlen
  | cons p rest ih =>
    intro segs pre hlen hdollar halign
    rcases segs with _ | ⟨s, segs'⟩
    · simp at hlen
    · have halign' : (((List.range (pre.data ++ s.data).length).all fun j =>
          !isPrefixList (placeholderOf p.1).data
            ((pre.data ++ s.data).drop j ++ (placeholderOf p.1).data
              ++ (withPlaceholders segs' rest).data))
          && alignedFrom (pre.data ++ s.data ++ p.2.data) segs' rest)
          = true := halign
      rw [Bool.and_eq_true] at halign'
      obtain ⟨h1, h2⟩ := halign'
      have hfree : ∀ j, j < (pre.data ++ s.data).length →
          isPrefixList (placeholderOf p.1).data
            ((pre.data ++ s.data).drop j ++ (placeholderOf p.1).data
              ++ (withPlaceholders segs' rest).data) = false := by
        intro j hj
        have := List.all_eq_true.mp h1 j (List.mem_range.mpr hj)
        simpa using this
      rw [show withPlaceholders (s :: segs') (p :: rest)
          = s ++ placeholderOf p.1 ++ withPlaceholders segs' rest from rfl]
      rw [interpolate_cons_ph]
      have hXdata : (pre ++ (s ++ placeholderOf p.1
            ++ withPlaceholders segs' rest)).data
          = pre.data ++ s.data ++ (placeholderOf p.1).data
            ++ (withPlaceholders segs' rest).data := by
        simp [String.data_append]
      have hstep : replaceFirst (pre ++ (s ++ placeholderOf p.1
            ++ withPlaceholders segs' rest)) (placeholderOf p.1) p.2
          = pre ++ s ++ p.2 ++ withPlaceholders segs' rest := by
        unfold replaceFirst
        rw [hXdata]
        rw [replaceFirstAux_first_occ (pre.data ++ s.data)
          (withPlaceholders segs' rest).data (placeholderOf p.1).data
          p.2.data hfree]
        rw [getSubstitution_no_dollar (placeholderOf p.1).data
          (pre.data ++ s.data) (withPlaceholders segs' rest).data p.2.data
          (hdollar p (List.mem_cons_self p rest))]
        apply String.ext
        simp [String.data_append]
      rw [hstep]
      have hpre' : (pre ++ s ++ p.2).data
          = pre.data ++ s.data ++ p.2.data := by
        simp [String.data_append]
      have ihlen : segs'.length = rest.length + 1 := by
        simp only [List.length_cons] at hlen
        omega
      have hih := ih segs' (pre ++ s ++ p.2) ihlen
        (fun q hq => hdollar q (List.mem_cons_of_mem _ hq))
        (by rw [hpre']; exact h2)
      rw [hih]
      rw [show withValues (s :: segs') (p :: rest)
          = s ++ p.2 ++ withValues segs' rest from rfl]
      apply String.ext
      simp [String.data_append]

/-! ### Claim C1 -/

/-- Claim C1 (counterexample): the claim's chain is violated at falsy values.
With `loadedContent = \x7ba: ""\x7d` and default document `\x7ba: "Save"\x7d`,
the key `a` IS present in the store, yet `caption` skips the store value and
returns the default-locale value; and with an explicitly provided empty
fallback, `caption("unknown.key", "")` returns the raw key, not the provided
fallback. -/
theorem caption_empty_fallback_cex :
    caption (Tree.node [("a", Tree.leaf "")])
        (Tree.node [("a", Tree.leaf "Save")]) "a" none none
      = Tree.leaf "Save" ∧
    caption (Tree.node []) (Tree.node []) "unknown.key" (some "") none
      = Tree.leaf "unknown.key" ∧
    Tree.leaf "Save" ≠ Tree.leaf "" ∧
    Tree.leaf "unknown.key" ≠ Tree.leaf "" :=
  ⟨rfl, rfl,
    fun h => absurd (Tree.leaf.inj h) (by decide),
    fun h => absurd (Tree.leaf.inj h) (by decide)⟩

/-- Claim C1 (amended): `caption` consults the sources in the fixed order
store → bundled default document → explicit fallback → raw key, where a store
or default match requires a truthy (non-empty) value and the explicit fallback
is used only when non-empty; the matching resolution source is recorded. -/
theorem caption_fallback_chain (m e : Tree) (key : String)
    (fb : Option String) :
    (∀ v, getNestedValue m (splitKey key) = some v → truthy v = true →
      captionWithSource m e key fb none = (v, Source.store)) ∧
    (optTruthy (getNestedValue m (splitKey key)) = false →
      ∀ v, getNestedValue e (splitKey key) = some v → truthy v = true →
        captionWithSource m e key fb none = (v, Source.fallbackHit)) ∧
    (optTruthy (getNestedValue m (splitKey key)) = false →
      optTruthy (getNestedValue e (splitKey key)) = false →
      ∀ f, fb = some f → f ≠ "" →
        captionWithSource m e key fb none = (Tree.leaf f, Source.missing)) ∧
    (optTruthy (getNestedValue m (splitKey key)) = false →
      optTruthy (getNestedValue e (splitKey key)) = false →
      (fb = none ∨ fb = some "") →
        captionWithSource m e key fb none
          = (Tree.leaf key, Source.missing)) := by
  refine ⟨?_, ?_, ?_, ?_⟩
  · intro v h ht
    rw [captionWithSource_params_none, resolveCore_store m e key fb v h ht]
  · intro h1 v h ht
    rw [captionWithSource_params_none,
      resolveCore_fallbackHit m e key fb h1 v h ht]
  · intro h1 h2 f hf hne
    rw [captionWithSource_params_none, hf,
      resolveCore_missing m e key (some f) h1 h2]
    dsimp only
    rw [if_neg hne]
  · intro h1 h2 hfb
    rcases hfb with rfl | rfl
    · rw [captionWithSource_params_none,
        resolveCore_missing m e key none h1 h2]
    · rw [captionWithSource_params_none,
        resolveCore_missing m e key (some "") h1 h2]
      dsimp only
      rw [if_pos rfl]

/-- Claim C1 (witness): the spec's concrete fallback-chain examples, one per
branch of the chain. -/
theorem caption_fallback_chain_witness :
    captionWithSource mDemo eDemo "common.save" none none
      = (Tree.leaf "Guardar", Source.store) ∧
    captionWithSource mDemo eDemo "common.cancel" none none
      = (Tree.leaf "Cancel", Source.fallbackHit) ∧
    captionWithSource mDemo eDemo "unknown.key" (some "N/A") none
      = (Tree.leaf "N/A", Source.missing) ∧
    captionWithSource mDemo eDemo "unknown.key" none none
      = (Tree.leaf "unknown.key", Source.missing) :=
  ⟨(caption_fallback_chain mDemo eDemo "common.save" none).1 _ rfl rfl,
    (caption_fallback_chain mDemo eDemo "common.cancel" none).2.1 rfl _ rfl rfl,
    (caption_fallback_chain mDemo eDemo "unknown.key" (some "N/A")).2.2.1
      rfl rfl "N/A" rfl (by decide),
    (caption_fallback_chain mDemo eDemo "unknown.key" none).2.2.2
      rfl rfl (Or.inl rfl)⟩

/-! ### Claim C2 -/

/-- Claim C2 (counterexample): a template containing the same placeholder
twice has only its FIRST occurrence substituted (`String.prototype.replace`
with a string pattern is not global), and the inserted text is not always
the parameter value itself: a value of `$$` inserts a single dollar
(ECMAScript GetSubstitution applies to string replacements). -/
theorem caption_second_occurrence_cex :
    caption (Tree.node [("a", Tree.leaf "\x7bn\x7d and \x7bn\x7d")])
        (Tree.node []) "a" none (some [("n", "X")])
      = Tree.leaf "X and \x7bn\x7d" ∧
    caption (Tree.node [("a", Tree.leaf "\x7bn\x7d and \x7bn\x7d")])
        (Tree.node []) "a" none (some [("n", "X")])
      ≠ Tree.leaf "X and X" ∧
    caption (Tree.node [("a", Tree.leaf "\x7bn\x7d")]) (Tree.node [])
        "a" none (some [("n", "$$")]) = Tree.leaf "$" ∧
    Tree.leaf "$" ≠ Tree.leaf "$$" := by
  refine ⟨rfl, ?_, rfl, ?_⟩
  · intro h
    have h3 : Tree.leaf "X and \x7bn\x7d" = Tree.leaf "X and X" :=
      (show Tree.leaf "X and \x7bn\x7d"
          = caption (Tree.node [("a", Tree.leaf "\x7bn\x7d and \x7bn\x7d")])
              (Tree.node []) "a" none (some [("n", "X")]) from rfl).trans h
    exact absurd (Tree.leaf.inj h3) (by decide)
  · intro h
    exact absurd (Tree.leaf.inj h) (by decide)

/-- Claim C2 (amended): with no `params` the resolved template is returned
with its placeholders intact; placeholders not named in `params` are left
verbatim; and for each key of `params`, taken in insertion order, only the
FIRST occurrence of its `\x7bparamName\x7d` placeholder in the current
string is replaced, the inserted text being the stringified parameter value
with its ECMAScript dollar escapes substituted — the value itself whenever
it contains no dollar sign. -/
theorem caption_interpolation_first (m e : Tree) (key : String) (t : String)
    (hfound : getNestedValue m (splitKey key) = some (Tree.leaf t))
    (ht : t ≠ "") :
    (caption m e key none none = Tree.leaf t) ∧
    (∀ ps : List (String × String),
      (∀ p ∈ ps, hasSub t.data ("\x7b" ++ p.1 ++ "\x7d").data = false) →
      caption m e key none (some ps) = Tree.leaf t) ∧
    (∀ (segs : List String) (ps : List (String × String)),
      segs.length = ps.length + 1 →
      (∀ p ∈ ps, '$' ∉ p.2.data) →
      alignedFrom [] segs ps = true →
      t = withPlaceholders segs ps →
      caption m e key none (some ps) = Tree.leaf (withValues segs ps)) ∧
    (∀ pre post pk pv : String,
      t = pre ++ ("\x7b" ++ pk ++ "\x7d") ++ post →
      (∀ i, i < pre.data.length →
        isPrefixList ("\x7b" ++ pk ++ "\x7d").data
          (pre.data.drop i ++ ("\x7b" ++ pk ++ "\x7d").data ++ post.data)
          = false) →
      caption m e key none (some [(pk, pv)])
        = Tree.leaf (pre ++ String.mk (getSubstitution
            ("\x7b" ++ pk ++ "\x7d").data pre.data post.data pv.data)
            ++ post)) := by
  have hres : resolveCore m e key none = (Tree.leaf t, Source.store) :=
    resolveCore_store m e key none _ hfound (by simp [truthy, ht])
  refine ⟨?_, ?_, ?_, ?_⟩
  · unfold caption
    rw [captionWithSource_params_none, hres]
  · intro ps hno
    unfold caption
    rw [captionWithSource_params_leaf m e key none ps t Source.store hres]
    dsimp only
    rw [interpolate_no_occ t ps hno]
  · intro segs ps hlen hdollar halign hdecomp
    unfold caption
    rw [captionWithSource_params_leaf m e key none ps t Source.store hres]
    dsimp only
    congr 1
    rw [hdecomp]
    exact interpolate_aligned ps segs "" hlen hdollar halign
  · intro pre post pk pv hdecomp hfree
    unfold caption
    rw [captionWithSource_params_leaf m e key none [(pk, pv)] t
      Source.store hres]
    dsimp only
    congr 1
    rw [interpolate_cons]
    show replaceFirst t ("\x7b" ++ pk ++ "\x7d") pv
      = pre ++ String.mk (getSubstitution
          ("\x7b" ++ pk ++ "\x7d").data pre.data post.data pv.data) ++ post
    unfold replaceFirst
    rw [hdecomp]
    have hdata : (pre ++ ("\x7b" ++ pk ++ "\x7d") ++ post).data
        = pre.data ++ ("\x7b" ++ pk ++ "\x7d").data ++ post.data := by
      simp [String.data_append]
    rw [hdata]
    rw [replaceFirstAux_first_occ pre.data post.data
      ("\x7b" ++ pk ++ "\x7d").data pv.data hfree]
    apply String.ext
    simp [String.data_append]

/-- Claim C2 (witness): the spec's interpolation example, a two-parameter
mapping substituted key by key, and the no-params case. -/
theorem caption_interpolation_first_witness :
    caption (Tree.node [("a", Tree.leaf "Welcome back, \x7bname\x7d!")])
        (Tree.node []) "a" none (some [("name", "Ava")])
      = Tree.leaf "Welcome back, Ava!" ∧
    caption (Tree.node [("a", Tree.leaf "Hi \x7bu\x7d, meet \x7bv\x7d")])
        (Tree.node []) "a" none (some [("u", "Ann"), ("v", "Bob")])
      = Tree.leaf "Hi Ann, meet Bob" ∧
    caption (Tree.node [("a", Tree.leaf "Welcome back, \x7bname\x7d!")])
        (Tree.node []) "a" none none
      = Tree.leaf "Welcome back, \x7bname\x7d!" := by
  refine ⟨?_, ?_, ?_⟩
  · have h := (caption_interpolation_first
        (Tree.node [("a", Tree.leaf "Welcome back, \x7bname\x7d!")])
        (Tree.node []) "a" "Welcome back, \x7bname\x7d!" rfl
        (by decide)).2.2.1 ["Welcome back, ", "!"] [("name", "Ava")]
        rfl (by decide) (by decide) (by decide)
    have h2 : withValues ["Welcome back, ", "!"] [("name", "Ava")]
        = "Welcome back, Ava!" := by decide
    rw [h2] at h
    exact h
  · have h := (caption_interpolation_first
        (Tree.node [("a", Tree.leaf "Hi \x7bu\x7d, meet \x7bv\x7d")])
        (Tree.node []) "a" "Hi \x7bu\x7d, meet \x7bv\x7d" rfl
        (by decide)).2.2.1 ["Hi ", ", meet ", ""]
        [("u", "Ann"), ("v", "Bob")] rfl (by decide) (by decide) (by decide)
    have h2 : withValues ["Hi ", ", meet ", ""] [("u", "Ann"), ("v", "Bob")]
        = "Hi Ann, meet Bob" := by decide
    rw [h2] at h
    exact h
  · exact (caption_interpolation_first
        (Tree.node [("a", Tree.leaf "Welcome back, \x7bname\x7d!")])
        (Tree.node []) "a" "Welcome back, \x7bname\x7d!" rfl (by decide)).1

/-! ### Claim C10 -/

/-- Claim C10 (counterexample): for a key whose stored value is the empty
string, `hasTranslation` returns true (the lookup is defined) but `caption`
does NOT take the store-hit branch — it records a missing-key event here,
since the English document is empty too. -/
theorem hasTranslation_empty_string_cex :
    hasTranslation (Tree.node [("a", Tree.leaf "")]) "a" = true ∧
    (captionWithSource (Tree.node [("a", Tree.leaf "")])
        (Tree.node []) "a" none none).2 = Source.missing ∧
    Source.missing ≠ Source.store :=
  ⟨rfl, rfl, by decide⟩

/-- Claim C10 (amended): `hasTranslation key` is true whenever `caption key`
takes the store-hit branch, and conversely a true `hasTranslation` implies a
store hit except in the one divergent case of a stored empty-string value,
where `hasTranslation` is true but the resolver falls through. -/
theorem hasTranslation_iff_store_hit (m e : Tree) (key : String)
    (fb : Option String) (ps : Option (List (String × String))) :
    ((captionWithSource m e key fb ps).2 = Source.store →
      hasTranslation m key = true) ∧
    (hasTranslation m key = true →
      (captionWithSource m e key fb ps).2 = Source.store ∨
        getNestedValue m (splitKey key) = some (Tree.leaf "")) := by
  rw [captionWithSource_snd, resolveCore_snd_source]
  constructor
  · intro h
    by_cases h1 : optTruthy (getNestedValue m (splitKey key))
    · unfold hasTranslation
      rcases hg : getNestedValue m (splitKey key) with _ | v
      · rw [hg] at h1
        exact absurd h1 (by simp [optTruthy])
      · simp
    · rw [if_neg h1] at h
      by_cases h2 : optTruthy (getNestedValue e (splitKey key))
      · rw [if_pos h2] at h
        exact absurd h (by decide)
      · rw [if_neg h2] at h
        exact absurd h (by decide)
  · intro h
    unfold hasTranslation at h
    rcases hg : getNestedValue m (splitKey key) with _ | v
    · rw [hg] at h
      simp at h
    · cases v with
      | node cs =>
        left
        rw [if_pos (show optTruthy (some (Tree.node cs)) = true from rfl)]
      | leaf str =>
        by_cases hs : str = ""
        · right
          rw [hs]
        · left
          have htr : optTruthy (some (Tree.leaf str)) = true := by
            simp [optTruthy, truthy, hs]
          rw [if_pos htr]

/-- Claim C10 (witness): a truthy stored value makes `hasTranslation` true,
through the store-hit direction of the equivalence. -/
theorem hasTranslation_iff_store_hit_witness :
    hasTranslation (Tree.node [("a", Tree.leaf "x")]) "a" = true :=
  (hasTranslation_iff_store_hit (Tree.node [("a", Tree.leaf "x")])
    (Tree.node []) "a" none none).1 rfl

/-! ### Claim C3 -/

/-- Claim C3 (counterexample): when the cache `get` raises (its await sits
OUTSIDE the try block in `loadLanguage`), the loader propagates the exception
instead of returning an empty document. -/
theorem loadLanguage_get_error_cex :
    loadLanguage envGetErr "es" st0 = Except.error () := rfl

/-- Claim C3 (amended): `loadLanguage` never raises provided the cache `get`
does not raise: every failure inside the try block — transport error,
non-success HTTP response, malformed body (all an absent network result), or
a raising cache `set` — is absorbed and yields an empty document; only an
error thrown by the cache `get` propagates to the caller. -/
theorem loadLanguage_absorbs_try_failures (env : Env) (locale : String)
    (s : St) (hg : env.getThrows = false) :
    (∃ r, loadLanguage env locale s = Except.ok r) ∧
    (locale ≠ "en" → currentLang s ≠ locale → env.net locale = none →
      loadLanguage env locale s
        = Except.ok (Tree.node [],
            { s with fetchCount := s.fetchCount + 1 })) ∧
    (locale ≠ "en" → currentLang s ≠ locale → env.setThrows = true →
      ∀ d, env.net locale = some d →
        loadLanguage env locale s
          = Except.ok (Tree.node [],
              { s with fetchCount := s.fetchCount + 1 })) := by
  refine ⟨loadLanguage_isOk env locale s hg, ?_, ?_⟩
  · intro hL hcur hn
    exact loadLanguage_miss_netfail env locale s hg hL hcur hn
  · intro hL hcur hsT d hn
    unfold loadLanguage
    rw [dbGet_no_throw env locale s hg, if_neg hL, if_neg hcur]
    dsimp only
    rw [show optTruthy none = false from rfl]
    simp only [Bool.false_eq_true, if_false]
    rw [hn]
    dsimp only
    unfold dbSet
    rw [hsT]
    rfl

/-- Claim C3 (witness): a cache-missing load under a dead network degrades to
the empty document, without raising. -/
theorem loadLanguage_absorbs_try_failures_witness :
    loadLanguage envFail "es" st0
      = Except.ok (Tree.node [],
          { userLang := none, dbDoc := none, fetchCount := 1 }) ∧
    loadLanguage envSetErr "es" st0
      = Except.ok (Tree.node [],
          { userLang := none, dbDoc := none, fetchCount := 1 }) :=
  ⟨(loadLanguage_absorbs_try_failures envFail "es" st0 rfl).2.1
      (by decide) (by decide) rfl,
    (loadLanguage_absorbs_try_failures envSetErr "es" st0 rfl).2.2
      (by decide) (by decide) rfl docES rfl⟩

/-! ### Claim C6 -/

/-- Claim C6: the cache `get` returns the stored document exactly when the
recorded current-locale marker equals the requested locale, and absent
otherwise, even when a document is physically present in the store. -/
theorem dbGet_marker_guard (env : Env) (locale : String) (s : St)
    (hg : env.getThrows = false) :
    (currentLang s = locale → dbGet env locale s = Except.ok s.dbDoc) ∧
    (currentLang s ≠ locale → dbGet env locale s = Except.ok none) := by
  constructor
  · intro h
    rw [dbGet_no_throw env locale s hg, if_pos h]
  · intro h
    rw [dbGet_no_throw env locale s hg, if_neg h]

/-- Claim C6 (witness): with the marker at `es` and a document physically in
the slot, requesting `fr` yields absent while requesting `es` yields the
document. -/
theorem dbGet_marker_guard_witness :
    dbGet envFail "fr" stES = Except.ok none ∧
    dbGet envFail "es" stES = Except.ok (some docES) :=
  ⟨(dbGet_marker_guard envFail "fr" stES rfl).2 (by decide),
    (dbGet_marker_guard envFail "es" stES rfl).1 (by decide)⟩

/-! ### Claim C9 -/

/-- Claim C9: `setAndLoadLanguage` cannot fail its caller: the busy flag is
false after it returns on every path; a failed load (cache miss with dead
network) leaves `loadedContent` empty; and even an exception from the loader
(raising cache `get`) is caught, again leaving `loadedContent` empty. -/
theorem activate_never_fails (env : Env) (L : String) (ui : Option String)
    (store : Store) (s : St) :
    ((setAndLoadLanguage env L ui store s).1.isLoading = false) ∧
    (env.getThrows = false → currentLang s ≠ L → env.net L = none →
      (setAndLoadLanguage env L ui store s).1.messages = []) ∧
    (env.getThrows = true → L ≠ "en" →
      (setAndLoadLanguage env L ui store s).1.messages = []) := by
  refine ⟨?_, ?_, ?_⟩
  · unfold setAndLoadLanguage
    cases hl : loadLanguage env L s with
    | error e => rfl
    | ok r =>
      obtain ⟨a, b⟩ := r
      rfl
  · intro hg hcur hn
    by_cases hL : L = "en"
    · subst hL
      unfold setAndLoadLanguage loadLanguage
      rw [if_pos rfl]
      dsimp only
      rw [filterEntries_empty]
    · have hl := loadLanguage_miss_netfail env L s hg hL hcur hn
      unfold setAndLoadLanguage
      rw [hl]
      dsimp only
      rw [filterEntries_empty]
  · intro hgT hL
    have hl := loadLanguage_getThrows_error env L s hgT hL
    unfold setAndLoadLanguage
    rw [hl]

/-- Claim C9 (witness): activating Spanish against a dead network completes
with empty content and a cleared busy flag; likewise under a raising cache
`get`. -/
theorem activate_never_fails_witness :
    (setAndLoadLanguage envFail "es" none store0 st0).1.isLoading = false ∧
    (setAndLoadLanguage envFail "es" none store0 st0).1.messages = [] ∧
    (setAndLoadLanguage envGetErr "es" none store0 st0).1.messages = [] :=
  ⟨(activate_never_fails envFail "es" none store0 st0).1,
    (activate_never_fails envFail "es" none store0 st0).2.1
      rfl (by decide) rfl,
    (activate_never_fails envGetErr "es" none store0 st0).2.2
      rfl (by decide)⟩

/-! ### Claim C4 -/

/-- Claim C4: for a supported non-default locale with a reachable document
and working storage, after one `setAndLoadLanguage` the persisted marker
equals the locale, and a second `setAndLoadLanguage` for the same locale
performs zero network retrievals — the fetch counter does not move. -/
theorem second_activate_no_fetch (env : Env) (L : String)
    (hsup : L ∈ supportedLocales) (hL : L ≠ "en")
    (hg : env.getThrows = false) (hset : env.setThrows = false)
    (d : List (String × Tree)) (hn : env.net L = some (Tree.node d))
    (store : Store) (s : St) :
    currentLang (setAndLoadLanguage env L none store s).2 = L ∧
    (setAndLoadLanguage env L none
        (setAndLoadLanguage env L none store s).1
        (setAndLoadLanguage env L none store s).2).2.fetchCount
      = (setAndLoadLanguage env L none store s).2.fetchCount := by
  have hLe : L ≠ "" := by
    simp only [supportedLocales, List.mem_cons, List.not_mem_nil,
      or_false] at hsup
    rcases hsup with rfl | rfl | rfl
    · exact absurd rfl hL
    · decide
    · decide
  have h1 := activate_state env L none store s hL hg hset (Tree.node d) hn
  have h2 := activate_state env L none (setAndLoadLanguage env L none store s).1
    (setAndLoadLanguage env L none store s).2 hL hg hset (Tree.node d) hn
  by_cases hc : currentLang s = L ∧ optTruthy s.dbDoc = true
  · rw [if_pos hc] at h1
    have hcur : currentLang (setAndLoadLanguage env L none store s).2 = L := by
      rw [h1]
      exact currentLang_update s L hLe
    refine ⟨hcur, ?_⟩
    have hcond : currentLang (setAndLoadLanguage env L none store s).2 = L ∧
        optTruthy (setAndLoadLanguage env L none store s).2.dbDoc = true := by
      refine ⟨hcur, ?_⟩
      rw [h1]
      exact hc.2
    rw [if_pos hcond] at h2
    rw [h2]
  · rw [if_neg hc] at h1
    have hcur : currentLang (setAndLoadLanguage env L none store s).2 = L := by
      rw [h1]
      exact currentLang_mk L hLe _ _
    refine ⟨hcur, ?_⟩
    have hcond : currentLang (setAndLoadLanguage env L none store s).2 = L ∧
        optTruthy (setAndLoadLanguage env L none store s).2.dbDoc = true := by
      refine ⟨hcur, ?_⟩
      rw [h1]
      rfl
    rw [if_pos hcond] at h2
    rw [h2]

/-- Claim C4 (witness): activating Spanish twice from a fresh state fetches
exactly once; the marker reads `es` after the first activation. -/
theorem second_activate_no_fetch_witness :
    currentLang (setAndLoadLanguage envDemo "es" none store0 st0).2 = "es" ∧
    (setAndLoadLanguage envDemo "es" none
        (setAndLoadLanguage envDemo "es" none store0 st0).1
        (setAndLoadLanguage envDemo "es" none store0 st0).2).2.fetchCount
      = (setAndLoadLanguage envDemo "es" none store0 st0).2.fetchCount :=
  second_activate_no_fetch envDemo "es" (by decide) (by decide) rfl rfl
    esSections rfl store0 st0

/-! ### Claim C5 -/

/-- Claim C5: switching between two distinct supported non-default locales
(each with a successful fetch) leaves the single-slot cache holding exactly
the second locale's document, and a cache `get` for the first locale then
returns absent. -/
theorem activate_switch_single_slot (env : Env) (L1 L2 : String)
    (h1s : L1 ∈ supportedLocales) (h2s : L2 ∈ supportedLocales)
    (hne : L1 ≠ L2) (hL1 : L1 ≠ "en") (hL2 : L2 ≠ "en")
    (hg : env.getThrows = false) (hset : env.setThrows = false)
    (d1 d2 : List (String × Tree))
    (hn1 : env.net L1 = some (Tree.node d1))
    (hn2 : env.net L2 = some (Tree.node d2))
    (store : Store) (s : St) :
    (setAndLoadLanguage env L2 none
        (setAndLoadLanguage env L1 none store s).1
        (setAndLoadLanguage env L1 none store s).2).2.dbDoc
      = some (Tree.node d2) ∧
    dbGet env L1 (setAndLoadLanguage env L2 none
        (setAndLoadLanguage env L1 none store s).1
        (setAndLoadLanguage env L1 none store s).2).2
      = Except.ok none := by
  have hL1e : L1 ≠ "" := by
    simp only [supportedLocales, List.mem_cons, List.not_mem_nil,
      or_false] at h1s
    rcases h1s with rfl | rfl | rfl
    · exact absurd rfl hL1
    · decide
    · decide
  have hL2e : L2 ≠ "" := by
    simp only [supportedLocales, List.mem_cons, List.not_mem_nil,
      or_false] at h2s
    rcases h2s with rfl | rfl | rfl
    · exact absurd rfl hL2
    · decide
    · decide
  have ha := activate_state env L1 none store s hL1 hg hset (Tree.node d1) hn1
  have hcur1 : currentLang (setAndLoadLanguage env L1 none store s).2 = L1 := by
    by_cases hc : currentLang s = L1 ∧ optTruthy s.dbDoc = true
    · rw [if_pos hc] at ha
      rw [ha]
      exact currentLang_update s L1 hL1e
    · rw [if_neg hc] at ha
      rw [ha]
      exact currentLang_mk L1 hL1e _ _
  have hb := activate_state env L2 none
    (setAndLoadLanguage env L1 none store s).1
    (setAndLoadLanguage env L1 none store s).2 hL2 hg hset (Tree.node d2) hn2
  have hcond : ¬ (currentLang (setAndLoadLanguage env L1 none store s).2 = L2 ∧
      optTruthy (setAndLoadLanguage env L1 none store s).2.dbDoc = true) := by
    intro hcc
    rw [hcur1] at hcc
    exact hne hcc.1
  rw [if_neg hcond] at hb
  have hcurX : currentLang (setAndLoadLanguage env L2 none
      (setAndLoadLanguage env L1 none store s).1
      (setAndLoadLanguage env L1 none store s).2).2 = L2 := by
    rw [hb]
    exact currentLang_mk L2 hL2e _ _
  constructor
  · rw [hb]
  · have hne2 : ¬ currentLang (setAndLoadLanguage env L2 none
        (setAndLoadLanguage env L1 none store s).1
        (setAndLoadLanguage env L1 none store s).2).2 = L1 := by
      rw [hcurX]
      exact fun h => hne h.symm
    rw [dbGet_no_throw env L1 _ hg, if_neg hne2]

/-- Claim C5 (witness): activating Spanish then French from a fresh state
leaves only the French document in the cache, and a cache `get` for Spanish
returns absent. -/
theorem activate_switch_single_slot_witness :
    (setAndLoadLanguage envDemo "fr" none
        (setAndLoadLanguage envDemo "es" none store0 st0).1
        (setAndLoadLanguage envDemo "es" none store0 st0).2).2.dbDoc
      = some docFR ∧
    dbGet envDemo "es" (setAndLoadLanguage envDemo "fr" none
        (setAndLoadLanguage envDemo "es" none store0 st0).1
        (setAndLoadLanguage envDemo "es" none store0 st0).2).2
      = Except.ok none :=
  activate_switch_single_slot envDemo "es" "fr" (by decide) (by decide)
    (by decide) (by decide) (by decide) rfl rfl esSections
    [("common", Tree.node [("save", Tree.leaf "Enregistrer")])]
    rfl rfl store0 st0

/-! ### Claim C7 -/

/-- Claim C7 (counterexample): the requested-section clause fails for a
requested section named by the empty string — `if (uiSection && ...)` treats
it as absent — so a document whose only section is named `""`, activated with
requested section `""`, yields empty `loadedContent` instead of retaining
that section. -/
theorem activate_empty_section_cex :
    treeGet docEmptyName "" = some (Tree.node [("k", Tree.leaf "v")]) ∧
    (setAndLoadLanguage envEmptyName "es" (some "") store0 st0).1.messages
      = [] :=
  ⟨rfl, rfl⟩

/-- Claim C7 (amended): for every loaded document (sections being non-empty
sub-trees) and every requested section name that is non-empty when given,
`setAndLoadLanguage` retains exactly the document's sections named in the
baseline set `\x7bcommon, error, footer\x7d` plus the requested section when
given and not already in the baseline; sections in that set but absent from
the document are omitted, and all other sections are excluded. -/
theorem activate_filters_sections (env : Env) (L : String)
    (uiSection : Option String) (store : Store) (s : St)
    (d : List (String × Tree)) (s1 : St)
    (hload : loadLanguage env L s = Except.ok (Tree.node d, s1))
    (hvals : ∀ p ∈ d, truthy p.2 = true)
    (hui : ∀ u, uiSection = some u → u ≠ "") :
    (∀ name,
      lookupEntry (setAndLoadLanguage env L uiSection store s).1.messages name
        = if name ∈ sectionsToLoadList uiSection then lookupEntry d name
          else none) ∧
    (∀ name, name ∈ sectionsToLoadList uiSection ↔
        name ∈ defaultSections ∨ uiSection = some name) := by
  constructor
  · intro name
    rw [activate_store env L uiSection store s (Tree.node d) s1 hload]
    dsimp only
    rw [lookupEntry_filterEntries]
    by_cases hm : name ∈ sectionsToLoadList uiSection
    · rw [if_pos hm, if_pos hm, truthyGet_of_all_truthy name hvals]
    · rw [if_neg hm, if_neg hm]
  · intro name
    rcases uiSection with _ | u
    · simp [sectionsToLoadList]
    · have hu : u ≠ "" := hui u rfl
      rw [show sectionsToLoadList (some u)
          = (if u ≠ "" ∧ u ∉ defaultSections then defaultSections ++ [u]
             else defaultSections) from rfl]
      by_cases hdc : u ≠ "" ∧ u ∉ defaultSections
      · rw [if_pos hdc]
        simp only [List.mem_append, List.mem_cons, List.not_mem_nil, or_false,
          Option.some.injEq]
        constructor
        · rintro (h | h)
          · exact Or.inl h
          · exact Or.inr h.symm
        · rintro (h | h)
          · exact Or.inl h
          · exact Or.inr h.symm
      · rw [if_neg hdc]
        have hcd : u ∈ defaultSections := by
          by_contra hcc
          exact hdc ⟨hu, hcc⟩
        constructor
        · exact fun h => Or.inl h
        · rintro (h | h)
          · exact h
          · have := Option.some.inj h
            rw [← this]
            exact hcd

/-- Claim C7 (witness): the spec's concrete example — a document with
sections `\x7bcommon, error, footer, dashboard, settings\x7d` activated with
requested section `dashboard` retains exactly the baseline plus `dashboard`
and drops `settings`. -/
theorem activate_filters_sections_witness :
    lookupEntry (setAndLoadLanguage envDemo "es" (some "dashboard")
        store0 st0).1.messages "dashboard"
      = some (Tree.node [("welcome", Tree.leaf "Hola")]) ∧
    lookupEntry (setAndLoadLanguage envDemo "es" (some "dashboard")
        store0 st0).1.messages "settings" = none ∧
    lookupEntry (setAndLoadLanguage envDemo "es" (some "dashboard")
        store0 st0).1.messages "common"
      = some (Tree.node [("save", Tree.leaf "Guardar")]) := by
  have h := (activate_filters_sections envDemo "es" (some "dashboard")
    store0 st0 esSections
    { userLang := none, dbDoc := some docES, fetchCount := 1 } rfl
    (by decide) (by intro u hu; cases hu; decide)).1
  refine ⟨?_, ?_, ?_⟩
  · rw [h "dashboard"]
    rfl
  · rw [h "settings"]
    rfl
  · rw [h "common"]
    rfl

/-! ### Claim C8 -/

/-- Claim C8: for a non-default active locale, `loadAdditionalSection` merges
the requested section additively — every previously loaded section keeps its
value, every previously present section stays present, and the requested
section (when present in the fetched document) is set to the fetched version
— whereas `setAndLoadLanguage` replaces `loadedContent` wholesale,
independently of what was loaded before. -/
theorem loadAdditionalSection_additive (env : Env) (sectionName : String)
    (store : Store) (s : St)
    (hloc : store.currentLocale ≠ "en") (hg : env.getThrows = false) :
    (∀ name, name ≠ sectionName →
      lookupEntry
          (loadAdditionalSection env sectionName store s).1.messages name
        = lookupEntry store.messages name) ∧
    (∀ name, (lookupEntry store.messages name).isSome = true →
      (lookupEntry
          (loadAdditionalSection env sectionName store s).1.messages
          name).isSome = true) ∧
    (∀ allM s1 vs, loadLanguage env store.currentLocale s
        = Except.ok (allM, s1) →
      treeGet allM sectionName = some (Tree.node vs) →
      lookupEntry (loadAdditionalSection env sectionName store s).1.messages
          sectionName
        = some (Tree.node vs)) ∧
    (∀ L ui m1 m2,
      (setAndLoadLanguage env L ui { store with messages := m1 } s).1.messages
        = (setAndLoadLanguage env L ui
            { store with messages := m2 } s).1.messages) := by
  obtain ⟨r, hr⟩ := loadLanguage_isOk env store.currentLocale s hg
  obtain ⟨allM, s1⟩ := r
  have hmsg : (loadAdditionalSection env sectionName store s).1.messages
      = match treeGet allM sectionName with
        | some v =>
          if truthy v then setEntry store.messages sectionName v
          else store.messages
        | none => store.messages := by
    unfold loadAdditionalSection
    rw [if_neg hloc, hr]
    dsimp only
    cases ht : treeGet allM sectionName with
    | none => rfl
    | some v =>
      dsimp only
      by_cases htr : truthy v
      · rw [if_pos htr, if_pos htr]
      · rw [if_neg htr, if_neg htr]
  refine ⟨?_, ?_, ?_, ?_⟩
  · intro name hne
    rw [hmsg]
    cases ht : treeGet allM sectionName with
    | none => rfl
    | some v =>
      dsimp only
      by_cases htr : truthy v
      · rw [if_pos htr]
        exact lookupEntry_setEntry_ne store.messages sectionName v name hne
      · rw [if_neg htr]
  · intro name hin
    rw [hmsg]
    cases ht : treeGet allM sectionName with
    | none => exact hin
    | some v =>
      dsimp only
      by_cases htr : truthy v
      · rw [if_pos htr]
        by_cases hne : name = sectionName
        · rw [hne, lookupEntry_setEntry_self]
          rfl
        · rw [lookupEntry_setEntry_ne store.messages sectionName v name hne]
          exact hin
      · rw [if_neg htr]
        exact hin
  · intro allM2 s12 vs hload ht
    have heq := hr.symm.trans hload
    rw [Except.ok.injEq, Prod.mk.injEq] at heq
    obtain ⟨heq1, heq2⟩ := heq
    subst heq1
    rw [hmsg, ht]
    dsimp only
    rw [if_pos (show truthy (Tree.node vs) = true from rfl)]
    exact lookupEntry_setEntry_self store.messages sectionName (Tree.node vs)
  · intro L ui m1 m2
    unfold setAndLoadLanguage
    cases hl : loadLanguage env L s with
    | error e => rfl
    | ok r2 =>
      obtain ⟨a, b⟩ := r2
      rfl

/-- Claim C8 (witness): with Spanish active and `common` already loaded,
loading the `dashboard` section preserves `common` and adds `dashboard`. -/
theorem loadAdditionalSection_additive_witness :
    lookupEntry (loadAdditionalSection envDemo "dashboard"
        { currentLocale := "es",
          messages := [("common", Tree.node [("save", Tree.leaf "Guardar")])],
          isLoading := false } st0).1.messages "common"
      = some (Tree.node [("save", Tree.leaf "Guardar")]) ∧
    lookupEntry (loadAdditionalSection envDemo "dashboard"
        { currentLocale := "es",
          messages := [("common", Tree.node [("save", Tree.leaf "Guardar")])],
          isLoading := false } st0).1.messages "dashboard"
      = some (Tree.node [("welcome", Tree.leaf "Hola")]) := by
  constructor
  · rw [(loadAdditionalSection_additive envDemo "dashboard"
      { currentLocale := "es",
        messages := [("common", Tree.node [("save", Tree.leaf "Guardar")])],
        isLoading := false } st0 (by decide) rfl).1 "common" (by decide)]
    rfl
  · exact (loadAdditionalSection_additive envDemo "dashboard"
      { currentLocale := "es",
        messages := [("common", Tree.node [("save", Tree.leaf "Guardar")])],
        isLoading := false } st0 (by decide) rfl).2.2.1 docES
      { userLang := none, dbDoc := some docES, fetchCount := 1 }
      [("welcome", Tree.leaf "Hola")] rfl rfl

end I18n
